import Mathlib

namespace PlcRos

/-- JSON values as produced by Python's json module, with numbers restricted
to integers (the payloads exchanged by this system are booleans in practice). -/
inductive JVal where
  | null : JVal
  | bool (b : Bool) : JVal
  | num (n : Int) : JVal
  | str (s : String) : JVal
  | arr (xs : List JVal) : JVal
  | obj (kvs : List (String × JVal)) : JVal
deriving Repr, Inhabited

/-- Code-point-wise lexicographic comparison of character lists, as Python
compares strings. -/
def charsLe : List Char → List Char → Bool
  | [], _ => true
  | _ :: _, [] => false
  | a :: as, b :: bs =>
      if a.toNat < b.toNat then true
      else if b.toNat < a.toNat then false
      else charsLe as bs

/-- Python string ordering used by sort_keys. -/
def keyLe (a b : String) : Bool := charsLe a.data b.data

/-- Comparison of object members by key, the order `sort_keys=True` sorts by. -/
def keyRel (p q : String × JVal) : Prop := keyLe p.1 q.1 = true

instance : DecidableRel keyRel := fun p q =>
  inferInstanceAs (Decidable (keyLe p.1 q.1 = true))

/-- Stable sort of object members by key, as Python's `sorted` does. -/
def sortByKey (l : List (String × JVal)) : List (String × JVal) := l.insertionSort keyRel

mutual
/-- Recursively sort every object's members by key. `json.dumps(..., sort_keys=True)`
serializes a value exactly as the plain serialization of its canonical form. -/
def canon : JVal → JVal
  | .null => .null
  | .bool b => .bool b
  | .num n => .num n
  | .str s => .str s
  | .arr xs => .arr (canonList xs)
  | .obj kvs => .obj (sortByKey (canonKVs kvs))

def canonList : List JVal → List JVal
  | [] => []
  | v :: vs => canon v :: canonList vs

def canonKVs : List (String × JVal) → List (String × JVal)
  | [] => []
  | (k, v) :: kvs => (k, canon v) :: canonKVs kvs
end


/-! ## Serialization: `json.dumps(obj, separators=(",", ":"), sort_keys=True)` -/

/-- Lowercase hex digit, as Python's `'\\u%04x'` formatting uses. -/
def hexDigitCh (d : Nat) : Char :=
  match d with
  | 0 => '0' | 1 => '1' | 2 => '2' | 3 => '3' | 4 => '4'
  | 5 => '5' | 6 => '6' | 7 => '7' | 8 => '8' | 9 => '9'
  | 10 => 'a' | 11 => 'b' | 12 => 'c' | 13 => 'd' | 14 => 'e' | _ => 'f'

/-- Four-digit hex rendering of `n < 0x10000`, as in `'\\u%04x' % n`. -/
def hex4 (n : Nat) : List Char :=
  [hexDigitCh (n / 4096 % 16), hexDigitCh (n / 256 % 16),
   hexDigitCh (n / 16 % 16), hexDigitCh (n % 16)]

/-- Escaping of one character by `json.dumps` with its default `ensure_ascii=True`:
quote and backslash get two-character escapes, the named control characters get
their short escapes, other printable ASCII is kept verbatim, and everything else
becomes `\\uXXXX` (a surrogate pair beyond the BMP). -/
def escapeChar (c : Char) : List Char :=
  if c = '"' then ['\\', '"']
  else if c = '\\' then ['\\', '\\']
  else if c = '\x08' then ['\\', 'b']
  else if c = '\x0c' then ['\\', 'f']
  else if c = '\n' then ['\\', 'n']
  else if c = '\r' then ['\\', 'r']
  else if c = '\t' then ['\\', 't']
  else if 0x20 ≤ c.toNat ∧ c.toNat ≤ 0x7e then [c]
  else if c.toNat < 0x10000 then '\\' :: 'u' :: hex4 c.toNat
  else
    ('\\' :: 'u' :: hex4 (0xd800 + (c.toNat - 0x10000) / 0x400)) ++
    ('\\' :: 'u' :: hex4 (0xdc00 + (c.toNat - 0x10000) % 0x400))

def escapeChars : List Char → List Char
  | [] => []
  | c :: cs => escapeChar c ++ escapeChars cs

def digitCh (d : Nat) : Char :=
  match d with
  | 0 => '0' | 1 => '1' | 2 => '2' | 3 => '3' | 4 => '4'
  | 5 => '5' | 6 => '6' | 7 => '7' | 8 => '8' | _ => '9'

/-- Little-endian decimal digits of `n`; `fuel ≥ n` suffices. -/
def natDigitsAux : Nat → Nat → List Char
  | 0, _ => []
  | _ + 1, 0 => []
  | fuel + 1, n + 1 => digitCh ((n + 1) % 10) :: natDigitsAux fuel ((n + 1) / 10)

/-- Decimal rendering of a natural number, as Python prints ints. -/
def natChars (n : Nat) : List Char :=
  match n with
  | 0 => ['0']
  | _ => (natDigitsAux n n).reverse

/-- Decimal rendering of an integer, as Python prints ints. -/
def intChars : Int → List Char
  | .ofNat n => natChars n
  | .negSucc m => '-' :: natChars (m + 1)

mutual
/-- Serialization of an (already canonicalized) value with compact separators,
exactly the bytes `json.dump(obj, tf, separators=(",", ":"), sort_keys=True)`
emits for a value whose objects are already key-sorted. -/
def dumpVal : JVal → List Char
  | .null => 'n' :: 'u' :: ['l', 'l']
  | .bool true => 't' :: 'r' :: ['u', 'e']
  | .bool false => 'f' :: 'a' :: ['l', 's', 'e']
  | .num n => intChars n
  | .str s => '"' :: escapeChars s.data ++ ['"']
  | .arr [] => ['[', ']']
  | .arr (v :: vs) => '[' :: (dumpVal v ++ dumpArrRest vs) ++ [']']
  | .obj [] => ['\x7b', '\x7d']
  | .obj (kv :: kvs) => '\x7b' :: (dumpMember kv ++ dumpObjRest kvs) ++ ['\x7d']

def dumpArrRest : List JVal → List Char
  | [] => []
  | v :: vs => ',' :: (dumpVal v ++ dumpArrRest vs)

def dumpMember : String × JVal → List Char
  | (k, v) => '"' :: escapeChars k.data ++ '"' :: ':' :: dumpVal v

def dumpObjRest : List (String × JVal) → List Char
  | [] => []
  | kv :: kvs => ',' :: (dumpMember kv ++ dumpObjRest kvs)
end

/-- `json.dumps(v, separators=(",", ":"), sort_keys=True)`: the canonical,
deterministic byte form used by every component of the system. -/
def dumps (v : JVal) : String := String.mk (dumpVal (canon v))

/-! ## Parsing: `json.loads` (restricted to the canonical grammar: no
insignificant whitespace, integer numbers) -/

def isDigitCh (c : Char) : Bool := 48 ≤ c.toNat && c.toNat ≤ 57

def digitVal (c : Char) : Nat := c.toNat - 48

/-- Longest leading run of decimal digits, as the json number scanner consumes. -/
def parseNatChars (cs : List Char) : Option (Nat × List Char) :=
  match cs.takeWhile isDigitCh with
  | [] => none
  | ds => some (ds.foldl (fun a c => a * 10 + digitVal c) 0, cs.dropWhile isDigitCh)

def decodeHexDigit (c : Char) : Option Nat :=
  if 48 ≤ c.toNat ∧ c.toNat ≤ 57 then some (c.toNat - 48)
  else if 97 ≤ c.toNat ∧ c.toNat ≤ 102 then some (c.toNat - 87)
  else if 65 ≤ c.toNat ∧ c.toNat ≤ 70 then some (c.toNat - 55)
  else none

/-- String-literal scanner: the characters after the opening quote, returning the
decoded content and what follows the closing quote. Handles the json escapes,
including `\\uXXXX` with surrogate pairs; rejects raw control characters as
`json.loads` does in its default strict mode. -/
def parseStr : Nat → List Char → Option (List Char × List Char)
  | 0, _ => none
  | _ + 1, [] => none
  | fuel + 1, c :: cs =>
    if c = '"' then some ([], cs)
    else if c = '\\' then
      match cs with
      | [] => none
      | e :: cs' =>
        if e = '"' then (parseStr fuel cs').map (fun r => ('"' :: r.1, r.2))
        else if e = '\\' then (parseStr fuel cs').map (fun r => ('\\' :: r.1, r.2))
        else if e = '/' then (parseStr fuel cs').map (fun r => ('/' :: r.1, r.2))
        else if e = 'b' then (parseStr fuel cs').map (fun r => ('\x08' :: r.1, r.2))
        else if e = 'f' then (parseStr fuel cs').map (fun r => ('\x0c' :: r.1, r.2))
        else if e = 'n' then (parseStr fuel cs').map (fun r => ('\n' :: r.1, r.2))
        else if e = 'r' then (parseStr fuel cs').map (fun r => ('\r' :: r.1, r.2))
        else if e = 't' then (parseStr fuel cs').map (fun r => ('\t' :: r.1, r.2))
        else if e = 'u' then
          match cs' with
          | a :: b :: c2 :: d :: cs'' =>
            match decodeHexDigit a, decodeHexDigit b, decodeHexDigit c2, decodeHexDigit d with
            | some ha, some hb, some hc, some hd =>
              let h := ((ha * 16 + hb) * 16 + hc) * 16 + hd
              if 0xd800 ≤ h ∧ h < 0xdc00 then
                match cs'' with
                | '\\' :: 'u' :: a2 :: b2 :: c3 :: d2 :: cs3 =>
                  match decodeHexDigit a2, decodeHexDigit b2, decodeHexDigit c3,
                      decodeHexDigit d2 with
                  | some la, some lb, some lc, some ld =>
                    let l := ((la * 16 + lb) * 16 + lc) * 16 + ld
                    if 0xdc00 ≤ l ∧ l < 0xe000 then
                      (parseStr fuel cs3).map (fun r =>
                        (Char.ofNat (0x10000 + (h - 0xd800) * 0x400 + (l - 0xdc00)) :: r.1,
                         r.2))
                    else none
                  | _, _, _, _ => none
                | _ => none
              else if 0xdc00 ≤ h ∧ h < 0xe000 then none
              else (parseStr fuel cs'').map (fun r => (Char.ofNat h :: r.1, r.2))
            | _, _, _, _ => none
          | _ => none
        else none
    else if c.toNat < 0x20 then none
    else (parseStr fuel cs).map (fun r => (c :: r.1, r.2))

/-- Keyword tail of `null`. -/
def expectNull : List Char → Option (JVal × List Char)
  | 'u' :: 'l' :: 'l' :: rest => some (.null, rest)
  | _ => none

/-- Keyword tail of `true`. -/
def expectTrue : List Char → Option (JVal × List Char)
  | 'r' :: 'u' :: 'e' :: rest => some (.bool true, rest)
  | _ => none

/-- Keyword tail of `false`. -/
def expectFalse : List Char → Option (JVal × List Char)
  | 'a' :: 'l' :: 's' :: 'e' :: rest => some (.bool false, rest)
  | _ => none

/-- Package a scanned natural number as a value. -/
def mkNum : Option (Nat × List Char) → Option (JVal × List Char)
  | some (k, rest) => some (.num (k : Int), rest)
  | none => none

/-- Package a scanned natural number, negated, as a value. -/
def mkNeg : Option (Nat × List Char) → Option (JVal × List Char)
  | some (k, rest) => some (.num (-(k : Int)), rest)
  | none => none

/-- Package scanned string content as a value. -/
def mkStr : Option (List Char × List Char) → Option (JVal × List Char)
  | some (sc, rest) => some (.str (String.mk sc), rest)
  | none => none

mutual
/-- Value scanner of `json.loads`, dispatching on the first character. -/
def parseVal : Nat → List Char → Option (JVal × List Char)
  | 0, _ => none
  | _ + 1, [] => none
  | fuel + 1, c :: cs' =>
    if isDigitCh c then mkNum (parseNatChars (c :: cs'))
    else if c = '-' then mkNeg (parseNatChars cs')
    else if c = '"' then mkStr (parseStr (cs'.length + 1) cs')
    else if c = 'n' then expectNull cs'
    else if c = 't' then expectTrue cs'
    else if c = 'f' then expectFalse cs'
    else if c = '[' then
      if cs'.head? = some ']' then some (.arr [], cs'.tail)
      else
        (parseVal fuel cs').bind fun r =>
          (parseItems fuel r.2).map fun r' => (.arr (r.1 :: r'.1), r'.2)
    else if c = '\x7b' then
      if cs'.head? = some '\x7d' then some (.obj [], cs'.tail)
      else
        (parseMember fuel cs').bind fun r =>
          (parseMembers fuel r.2).map fun r' => (.obj (r.1 :: r'.1), r'.2)
    else none

/-- After the first array element: either the closing bracket or a comma and
another element. -/
def parseItems : Nat → List Char → Option (List JVal × List Char)
  | 0, _ => none
  | fuel + 1, cs =>
    if cs.head? = some ']' then some ([], cs.tail)
    else if cs.head? = some ',' then
      (parseVal fuel cs.tail).bind fun r =>
        (parseItems fuel r.2).map fun r' => (r.1 :: r'.1, r'.2)
    else none

/-- One `"key":value` object member. -/
def parseMember : Nat → List Char → Option ((String × JVal) × List Char)
  | 0, _ => none
  | fuel + 1, cs =>
    if cs.head? = some '"' then
      (parseStr (cs.tail.length + 1) cs.tail).bind fun r =>
        if r.2.head? = some ':' then
          (parseVal fuel r.2.tail).map fun r' => ((String.mk r.1, r'.1), r'.2)
        else none
    else none

/-- After the first object member: either the closing brace or a comma and
another member. -/
def parseMembers : Nat → List Char → Option (List (String × JVal) × List Char)
  | 0, _ => none
  | fuel + 1, cs =>
    if cs.head? = some '\x7d' then some ([], cs.tail)
    else if cs.head? = some ',' then
      (parseMember fuel cs.tail).bind fun r =>
        (parseMembers fuel r.2).map fun r' => (r.1 :: r'.1, r'.2)
    else none
end

/-- `json.loads`: parse a complete value; trailing characters are an error. -/
def loads (s : String) : Option JVal :=
  match parseVal (s.data.length + 1) s.data with
  | some (v, []) => some v
  | _ => none

/-! ## Measures used to discharge the parser fuel in the round-trip proof -/

mutual
def sizeV : JVal → Nat
  | .null => 1
  | .bool _ => 1
  | .num _ => 1
  | .str _ => 1
  | .arr [] => 1
  | .arr (v :: vs) => 1 + sizeV v + sizeItems vs
  | .obj [] => 1
  | .obj (kv :: kvs) => 1 + sizeMember kv + sizeMembers kvs

def sizeItems : List JVal → Nat
  | [] => 1
  | v :: vs => 1 + sizeV v + sizeItems vs

def sizeMember : String × JVal → Nat
  | (_, v) => 1 + sizeV v

def sizeMembers : List (String × JVal) → Nat
  | [] => 1
  | kv :: kvs => 1 + sizeMember kv + sizeMembers kvs
end

/-- The first character, if any, is not a decimal digit (so the number scanner
stops exactly at a serialized number's end). -/
def noDigitHead : List Char → Bool
  | [] => true
  | c :: _ => !isDigitCh c

/-- Value of a little-endian list of decimal digit characters. -/
def digitsValueLE : List Char → Nat
  | [] => 0
  | c :: cs => digitVal c + 10 * digitsValueLE cs

/-! ## Filesystem model

A filesystem is an association list from paths to file contents; the most
recent binding wins. The atomic-write helper is modelled as the exact sequence
of operations the Python code performs, so that ordering properties (write the
temp file, flush, fsync, then one rename) are visible in the trace. -/

/-- Association-list filesystem: newest binding first. -/
abbrev Fs : Type := List (String × String)

def fsGet (fs : Fs) (p : String) : Option String :=
  (List.find? (fun e => e.1 == p) fs).map (fun e => e.2)

def fsSet (fs : Fs) (p c : String) : Fs := (p, c) :: fs

def fsDel (fs : Fs) (p : String) : Fs := List.filter (fun e => !(e.1 == p)) fs

/-- `os.path.dirname` for POSIX paths: everything before the last slash, with
trailing slashes stripped unless the result is all slashes. -/
def dirname (p : String) : String :=
  let cs := p.data
  let tailLen := (cs.reverse.takeWhile (fun c => !(c == '/'))).length
  if tailLen = cs.length then ""
  else
    let head := cs.take (cs.length - tailLen)
    if head.all (fun c => c == '/') then String.mk head
    else String.mk ((head.reverse.dropWhile (fun c => c == '/')).reverse)

/-- One filesystem operation performed by the writers. -/
inductive FsOp where
  | createTemp (dir : String) (name : String)
  | writeFile (name : String) (content : String)
  | flush (name : String)
  | fsync (name : String)
  | rename (src : String) (dst : String)
deriving Repr, DecidableEq

def applyOp (fs : Fs) : FsOp → Fs
  | .createTemp _ name => fsSet fs name ""
  | .writeFile name content => fsSet fs name content
  | .flush _ => fs
  | .fsync _ => fs
  | .rename src dst =>
    match fsGet fs src with
    | some c => fsSet (fsDel fs src) dst c
    | none => fs

def applyOps (ops : List FsOp) (fs : Fs) : Fs := ops.foldl applyOp fs

/-- Does this operation name the given path at all? -/
def opTouches (op : FsOp) (p : String) : Bool :=
  match op with
  | .createTemp _ name => name == p
  | .writeFile name _ => name == p
  | .flush name => name == p
  | .fsync name => name == p
  | .rename src dst => src == p || dst == p

/-- `_atomic_write_json` of PSM.py, identical to `atomically_write_json` of
mqtt_input_bridge.py: a temp file in the target's directory receives the
canonical serialization, is flushed and fsynced, and is renamed onto the
target. `tmp` stands for the fresh name `NamedTemporaryFile` picks. -/
def atomic_write_json (path tmp : String) (obj : JVal) : List FsOp :=
  let directory := if dirname path = "" then "." else dirname path
  [FsOp.createTemp directory tmp,
   FsOp.writeFile tmp (dumps obj),
   FsOp.flush tmp,
   FsOp.fsync tmp,
   FsOp.rename tmp path]

/-! ## The three components -/

/-- Console messages, abstracted to tags (the code logs with `print`). -/
inductive LogEvent where
  | warnBadKeys
  | wroteInput
  | ignoredNonObject
  | errBadJson
  | errDecode
  | psmNonObjectInput
  | psmInputError
  | psmOutputError
deriving Repr, DecidableEq

def INPUT_PATH : String := "/tmp/input.json"

def OUTPUT_PATH : String := "/tmp/output.json"

def OUTPUT_VARS : List String := ["QX0.0"]

/-- `key.startswith("%")`. -/
def startsWithPercent (s : String) : Bool :=
  match s.data with
  | [] => false
  | c :: _ => c == '%'

/-- `key[1:]`. -/
def dropFirst (s : String) : String := String.mk (s.data.drop 1)

/-- `on_message` of mqtt_input_bridge.py. The payload argument is the result of
`msg.payload.decode("utf-8")`: `none` models a `UnicodeDecodeError` (caught by
the generic handler); parse failure models `json.JSONDecodeError`. A decoded
object is written whole to the inbound slot via the atomic write; keys not
starting with `%` only produce a warning, never a filtered write. -/
def on_message (payload : Option String) (tmp : String) (fs : Fs) : Fs × List LogEvent :=
  match payload with
  | none => (fs, [.errDecode])
  | some p =>
    match loads p with
    | none => (fs, [.errBadJson])
    | some (.obj kvs) =>
      let bad := kvs.filter (fun kv => !startsWithPercent kv.1)
      let warns : List LogEvent := if bad.isEmpty then [] else [.warnBadKeys]
      (applyOps (atomic_write_json INPUT_PATH tmp (.obj kvs)) fs, warns ++ [.wroteInput])
    | some _ => (fs, [.ignoredNonObject])

/-- `read_json_if_ready` of mqtt_output_bridge.py, applied to the slot content
(`none` = the file does not exist). A missing or zero-length file, and content
that fails to decode, all yield `none`; the decode-error branch is silent
(only the catch-all for other I/O errors logs, which the pure model cannot
raise). -/
def read_json_if_ready (file : Option String) : Option JVal × List LogEvent :=
  match file with
  | none => (none, [])
  | some content =>
    if content.data.length = 0 then (none, [])
    else
      match loads content with
      | some v => (some v, [])
      | none => (none, [])

/-- The `for key, value in data.items()` loop of `update_inputs`: keys carrying
the `%` sentinel are forwarded to `psm.set_var` with the sentinel stripped;
other keys are skipped. Returns the calls performed and the exception `set_var`
raised, if any (a raise aborts the rest of the loop). -/
def applyVars (setVar : String → JVal → Except String Unit) :
    List (String × JVal) → List (String × JVal) × Option String
  | [] => ([], none)
  | (k, v) :: kvs =>
    if startsWithPercent k then
      match setVar (dropFirst k) v with
      | .ok _ =>
        let r := applyVars setVar kvs
        ((dropFirst k, v) :: r.1, r.2)
      | .error e => ([(dropFirst k, v)], some e)
    else applyVars setVar kvs

/-- `update_inputs` of PSM.py, applied to the inbound slot content (`none` =
`os.path.exists` is false). Everything inside the `try` is caught: a missing
file is a silent no-op, undecodable content (including a zero-length file) is
logged, a non-object is logged and skipped, and an exception from `set_var` is
logged; no exception propagates to the scan loop. Returns the `set_var` calls
performed and the log events. -/
def update_inputs (setVar : String → JVal → Except String Unit) (file : Option String) :
    List (String × JVal) × List LogEvent :=
  match file with
  | none => ([], [])
  | some content =>
    match loads content with
    | none => ([], [.psmInputError])
    | some (.obj kvs) =>
      let r := applyVars setVar kvs
      match r.2 with
      | none => (r.1, [])
      | some _ => (r.1, [.psmInputError])
    | some _ => ([], [.psmNonObjectInput])

/-- The `for addr in OUTPUT_VARS` loop of `update_outputs`: read each configured
output from the controller and store it under the `%`-prefixed key. A raise from
`get_var` aborts the loop (and the snapshot is discarded by the caller). -/
def collectOutputs (getVar : String → Except String JVal) :
    List String → List (String × JVal) × Option String
  | [] => ([], none)
  | a :: as =>
    match getVar a with
    | .ok v =>
      let r := collectOutputs getVar as
      (("%" ++ a, v) :: r.1, r.2)
    | .error e => ([], some e)

/-- `update_outputs` of PSM.py: build a fresh snapshot of the configured output
variables and write it whole to the outbound slot with the atomic write; any
exception is caught and logged, in which case nothing is written. -/
def update_outputs (getVar : String → Except String JVal) (tmp : String) (fs : Fs) :
    Fs × List LogEvent :=
  let r := collectOutputs getVar OUTPUT_VARS
  match r.2 with
  | some _ => (fs, [.psmOutputError])
  | none => (applyOps (atomic_write_json OUTPUT_PATH tmp (.obj r.1)) fs, [])

/-- `hardware_init` of PSM.py: after `psm.start()` (external, no filesystem
effect) the outbound slot is pre-created as an empty snapshot so downstream
readers never observe "absent" after init. -/
def hardware_init (tmp : String) (fs : Fs) : Fs :=
  applyOps (atomic_write_json OUTPUT_PATH tmp (.obj [])) fs

/-- One iteration of the PSM scan loop: `update_inputs()` then
`update_outputs()`. -/
def scanPeriod (setVar : String → JVal → Except String Unit)
    (getVar : String → Except String JVal) (tmp : String) (fs : Fs) :
    Fs × List (String × JVal) × List LogEvent :=
  let rIn := update_inputs setVar (fsGet fs INPUT_PATH)
  let rOut := update_outputs getVar tmp fs
  (rOut.1, rIn.1, rIn.2 ++ rOut.2)

/-- `n` scan periods of the PSM main loop (`while not psm.should_quit()`); the
loop runs until the external stop signal, so any prefix of it is of this form. -/
def scanLoop (setVar : String → JVal → Except String Unit)
    (getVar : String → Except String JVal) (tmp : String) : Nat → Fs → Fs × List LogEvent
  | 0, fs => (fs, [])
  | n + 1, fs =>
    let r := scanPeriod setVar getVar tmp fs
    let rest := scanLoop setVar getVar tmp n r.1
    (rest.1, r.2.2 ++ rest.2)

/-! ## Outbound Adapter (mqtt_output_bridge.py) -/

/-- Process-local state of the output bridge's polling loop: the last published
canonical payload (`None` on process start) and, for the model, the list of
payloads published so far. -/
structure BridgeState where
  previous_payload : Option String
  published : List String
deriving Repr, DecidableEq

/-- `previous_payload = None` at process start: a restart forgets the
fingerprint. -/
def initialBridgeState : BridgeState := ⟨none, []⟩

/-- One tick of the polling loop of `main` in mqtt_output_bridge.py, applied to
the outbound slot content: read the slot if ready; on data, canonicalize and
publish only when the payload differs from the previous one, then remember it. -/
def outputTick (st : BridgeState) (file : Option String) : BridgeState :=
  match (read_json_if_ready file).1 with
  | none => st
  | some data =>
    let current_payload := dumps data
    if some current_payload ≠ st.previous_payload then
      ⟨some current_payload, st.published ++ [current_payload]⟩
    else st

/-- Run the polling loop from process start over a sequence of observed slot
contents. -/
def runTicks (files : List (Option String)) : BridgeState :=
  files.foldl outputTick initialBridgeState

/-! ## Order lemmas for the key comparison -/

theorem charToNat_inj {a b : Char} (h : a.toNat = b.toNat) : a = b :=
  Char.ext (UInt32.toNat.inj h)

theorem charsLe_refl : ∀ as, charsLe as as = true := by
  intro as
  induction as with
  | nil => rfl
  | cons a as ih => simp [charsLe, ih]

theorem charsLe_total : ∀ as bs, charsLe as bs = true ∨ charsLe bs as = true := by
  intro as
  induction as with
  | nil => intro bs; left; rfl
  | cons a as ih =>
    intro bs
    cases bs with
    | nil => right; rfl
    | cons b bs =>
      simp only [charsLe]
      rcases Nat.lt_trichotomy a.toNat b.toNat with h | h | h
      · left; simp [h]
      · have : a = b := charToNat_inj h
        subst this
        simpa using ih bs
      · right; simp [h, Nat.lt_asymm h]

theorem charsLe_trans : ∀ as bs cs, charsLe as bs = true → charsLe bs cs = true →
    charsLe as cs = true := by
  intro as
  induction as with
  | nil => intro bs cs _ _; rfl
  | cons a as ih =>
    intro bs cs h₁ h₂
    cases bs with
    | nil => simp [charsLe] at h₁
    | cons b bs =>
      cases cs with
      | nil => simp [charsLe] at h₂
      | cons c cs =>
        simp only [charsLe] at h₁ h₂ ⊢
        by_cases hab : a.toNat < b.toNat <;> by_cases hbc : b.toNat < c.toNat
        · simp [Nat.lt_trans hab hbc]
        · simp only [hbc, if_false] at h₂
          by_cases hcb : c.toNat < b.toNat
          · simp [hcb] at h₂
          · have hbceq : b = c := charToNat_inj (by omega)
            subst hbceq
            simp [hab]
        · simp only [hab, if_false] at h₁
          by_cases hba : b.toNat < a.toNat
          · simp [hba] at h₁
          · have habeq : a = b := charToNat_inj (by omega)
            subst habeq
            simp [hbc]
        · simp only [hab, if_false] at h₁
          simp only [hbc, if_false] at h₂
          by_cases hba : b.toNat < a.toNat
          · simp [hba] at h₁
          · by_cases hcb : c.toNat < b.toNat
            · simp [hcb] at h₂
            · have habeq : a = b := charToNat_inj (by omega)
              have hbceq : b = c := charToNat_inj (by omega)
              subst habeq; subst hbceq
              simp only [Nat.lt_irrefl, if_false] at h₁ h₂ ⊢
              exact ih bs cs h₁ h₂

theorem charsLe_antisymm : ∀ as bs, charsLe as bs = true → charsLe bs as = true →
    as = bs := by
  intro as
  induction as with
  | nil =>
    intro bs _ h₂
    cases bs with
    | nil => rfl
    | cons b bs => simp [charsLe] at h₂
  | cons a as ih =>
    intro bs h₁ h₂
    cases bs with
    | nil => simp [charsLe] at h₁
    | cons b bs =>
      simp only [charsLe] at h₁ h₂
      rcases Nat.lt_trichotomy a.toNat b.toNat with hab | hab | hab
      · simp [hab, Nat.lt_asymm hab] at h₂
      · have : a = b := charToNat_inj hab
        subst this
        simp only [Nat.lt_irrefl, if_false] at h₁ h₂
        rw [ih bs h₁ h₂]
      · simp [hab, Nat.lt_asymm hab] at h₁

theorem keyLe_antisymm {a b : String} (h₁ : keyLe a b = true) (h₂ : keyLe b a = true) :
    a = b := by
  cases a; cases b
  congr 1
  exact charsLe_antisymm _ _ h₁ h₂

instance : IsTotal (String × JVal) keyRel :=
  ⟨fun p q => charsLe_total p.1.data q.1.data⟩

instance : IsTrans (String × JVal) keyRel :=
  ⟨fun _ _ _ h₁ h₂ => charsLe_trans _ _ _ h₁ h₂⟩

instance : IsRefl (String × JVal) keyRel := ⟨fun p => charsLe_refl p.1.data⟩

/-- Two key-sorted member lists that are permutations of each other and have no
duplicate keys are equal. -/
theorem sorted_perm_nodup_eq : ∀ {l₁ l₂ : List (String × JVal)}, l₁.Perm l₂ →
    l₁.Pairwise keyRel → l₂.Pairwise keyRel → (l₁.map Prod.fst).Nodup → l₁ = l₂ := by
  intro l₁
  induction l₁ with
  | nil => intro l₂ hp _ _ _; exact (hp.nil_eq).symm ▸ rfl
  | cons a t ih =>
    intro l₂ hp hs₁ hs₂ hnd
    cases l₂ with
    | nil => exact absurd hp.symm.nil_eq (by simp)
    | cons b t₂ =>
      by_cases hab : a = b
      · subst hab
        have ht : t.Perm t₂ := hp.cons_inv
        have := ih ht hs₁.of_cons hs₂.of_cons (by simpa using hnd.of_cons)
        rw [this]
      · exfalso
        have hbmem : b ∈ a :: t := hp.symm.subset (List.mem_cons_self b t₂)
        have hbt : b ∈ t := by
          rcases List.mem_cons.mp hbmem with h | h
          · exact absurd h.symm hab
          · exact h
        have hamem : a ∈ b :: t₂ := hp.subset (List.mem_cons_self a t)
        have hat : a ∈ t₂ := by
          rcases List.mem_cons.mp hamem with h | h
          · exact absurd h hab
          · exact h
        have h₁ : keyRel a b := List.rel_of_pairwise_cons hs₁ hbt
        have h₂ : keyRel b a := List.rel_of_pairwise_cons hs₂ hat
        have hkey : a.1 = b.1 := keyLe_antisymm h₁ h₂
        have : a.1 ∉ (t.map Prod.fst) := by
          simpa using (List.nodup_cons.mp hnd).1
        exact this (hkey ▸ List.mem_map_of_mem Prod.fst hbt)

/-! ## Canonicalization lemmas -/

theorem canonKVs_eq_map : ∀ l, canonKVs l = l.map (fun kv => (kv.1, canon kv.2))
  | [] => rfl
  | (k, v) :: kvs => by rw [canonKVs, canonKVs_eq_map kvs]; rfl

theorem keys_canonKVs (l : List (String × JVal)) :
    (canonKVs l).map Prod.fst = l.map Prod.fst := by
  rw [canonKVs_eq_map, List.map_map]
  rfl

theorem sortByKey_perm (l : List (String × JVal)) : (sortByKey l).Perm l :=
  List.perm_insertionSort keyRel l

theorem sortByKey_sorted (l : List (String × JVal)) : (sortByKey l).Pairwise keyRel :=
  List.sorted_insertionSort keyRel l

theorem sortByKey_sortByKey (l : List (String × JVal)) :
    sortByKey (sortByKey l) = sortByKey l :=
  List.Sorted.insertionSort_eq (List.sorted_insertionSort keyRel l)

theorem canonKVs_sortByKey (l : List (String × JVal)) :
    canonKVs (sortByKey l) = sortByKey (canonKVs l) := by
  rw [canonKVs_eq_map, canonKVs_eq_map]
  exact List.map_insertionSort keyRel keyRel _ l (fun a _ b _ => Iff.rfl)

mutual
theorem canon_canon : ∀ v, canon (canon v) = canon v
  | .null => rfl
  | .bool _ => rfl
  | .num _ => rfl
  | .str _ => rfl
  | .arr xs => by
      simp only [canon]
      rw [canonList_canonList xs]
  | .obj kvs => by
      simp only [canon]
      rw [canonKVs_sortByKey, sortByKey_sortByKey, canonKVs_canonKVs kvs]

theorem canonList_canonList : ∀ vs, canonList (canonList vs) = canonList vs
  | [] => rfl
  | v :: vs => by
      simp only [canonList]
      rw [canon_canon v, canonList_canonList vs]

theorem canonKVs_canonKVs : ∀ kvs, canonKVs (canonKVs kvs) = canonKVs kvs
  | [] => rfl
  | (k, v) :: kvs => by
      simp only [canonKVs]
      rw [canon_canon v, canonKVs_canonKVs kvs]
end

/-- The members of a canonicalized object are sorted by key. -/
theorem canon_obj_sorted (kvs l : List (String × JVal)) (h : canon (.obj kvs) = .obj l) :
    (l.map Prod.fst).Pairwise (fun a b => keyLe a b = true) := by
  have hl : l = sortByKey (canonKVs kvs) := by
    simp only [canon] at h
    exact (JVal.obj.inj h).symm
  subst hl
  exact (sortByKey_sorted (canonKVs kvs)).map Prod.fst (fun _ _ h => h)

/-- The canonical serialization of an object does not depend on the insertion
order of its (distinct) keys. -/
theorem dumps_obj_perm {kvs kvs' : List (String × JVal)} (hp : kvs.Perm kvs')
    (hnd : (kvs.map Prod.fst).Nodup) : dumps (.obj kvs') = dumps (.obj kvs) := by
  have hcanon : canon (.obj kvs') = canon (.obj kvs) := by
    simp only [canon]
    congr 1
    refine sorted_perm_nodup_eq ?_ (sortByKey_sorted _) (sortByKey_sorted _) ?_
    · exact (sortByKey_perm _).trans
        ((canonKVs_eq_map kvs' ▸ canonKVs_eq_map kvs ▸ hp.symm.map _).trans
          (sortByKey_perm _).symm)
    · refine (((sortByKey_perm (canonKVs kvs')).map Prod.fst).nodup_iff).mpr ?_
      rw [keys_canonKVs]
      exact (hp.map Prod.fst).nodup_iff.mp hnd
  unfold dumps
  rw [hcanon]

/-! ## Round-trip: `loads (dumps v) = some (canon v)` -/

theorem stringMk_data : ∀ s : String, String.mk s.data = s
  | ⟨_⟩ => rfl

theorem hexDigit_round : ∀ d, d < 16 → decodeHexDigit (hexDigitCh d) = some d := by decide

theorem digitVal_digitCh : ∀ d, d < 10 → digitVal (digitCh d) = d := by decide

theorem isDigitCh_digitCh : ∀ d, d < 10 → isDigitCh (digitCh d) = true := by decide

theorem escapeChar_length_pos (c : Char) : 1 ≤ (escapeChar c).length := by
  unfold escapeChar
  split_ifs <;> simp

theorem escapeChars_length : ∀ cs : List Char, cs.length ≤ (escapeChars cs).length := by
  intro cs
  induction cs with
  | nil => simp [escapeChars]
  | cons c cs ih =>
    have := escapeChar_length_pos c
    simp only [escapeChars, List.length_append, List.length_cons]
    omega

theorem natDigitsAux_zero : ∀ fuel, natDigitsAux fuel 0 = [] := by
  intro fuel
  cases fuel <;> rfl

theorem natDigitsAux_spec : ∀ fuel n, 0 < n → n ≤ fuel →
    digitsValueLE (natDigitsAux fuel n) = n ∧
    (∀ c ∈ natDigitsAux fuel n, isDigitCh c = true) ∧ natDigitsAux fuel n ≠ [] := by
  intro fuel
  induction fuel with
  | zero => intro n h₁ h₂; omega
  | succ fuel ih =>
    intro n h₁ h₂
    obtain ⟨m, rfl⟩ : ∃ m, n = m + 1 := ⟨n - 1, by omega⟩
    rw [natDigitsAux]
    by_cases hq : (m + 1) / 10 = 0
    · rw [hq, natDigitsAux_zero]
      refine ⟨?_, ?_, by simp⟩
      · simp only [digitsValueLE]
        rw [digitVal_digitCh _ (Nat.mod_lt _ (by omega))]
        omega
      · intro c hc
        simp only [List.mem_singleton] at hc
        subst hc
        exact isDigitCh_digitCh _ (Nat.mod_lt _ (by omega))
    · obtain ⟨hval, hdig, hne⟩ := ih ((m + 1) / 10) (by omega) (by omega)
      refine ⟨?_, ?_, by simp⟩
      · simp only [digitsValueLE]
        rw [digitVal_digitCh _ (Nat.mod_lt _ (by omega)), hval]
        omega
      · intro c hc
        rcases List.mem_cons.mp hc with rfl | hc
        · exact isDigitCh_digitCh _ (Nat.mod_lt _ (by omega))
        · exact hdig c hc

theorem foldr_digitsValue (L : List Char) :
    L.foldr (fun c a => a * 10 + digitVal c) 0 = digitsValueLE L := by
  induction L with
  | nil => rfl
  | cons c cs ih => simp only [List.foldr, digitsValueLE, ih]; omega

theorem natChars_spec (n : Nat) :
    (∀ c ∈ natChars n, isDigitCh c = true) ∧ natChars n ≠ [] ∧
    (natChars n).foldl (fun a c => a * 10 + digitVal c) 0 = n := by
  match n with
  | 0 => exact ⟨by decide, by decide, by decide⟩
  | m + 1 =>
    obtain ⟨hval, hdig, hne⟩ := natDigitsAux_spec (m + 1) (m + 1) (by omega) le_rfl
    have hfold : (natDigitsAux (m + 1) (m + 1)).reverse.foldl
        (fun a c => a * 10 + digitVal c) 0 = m + 1 := by
      rw [List.foldl_reverse]
      rw [show (fun (x : Char) (y : Nat) => y * 10 + digitVal x) =
        (fun c a => a * 10 + digitVal c) from rfl]
      rw [foldr_digitsValue, hval]
    have hnc : natChars (m + 1) = (natDigitsAux (m + 1) (m + 1)).reverse := rfl
    refine ⟨?_, ?_, ?_⟩
    · intro c hc
      rw [hnc, List.mem_reverse] at hc
      exact hdig c hc
    · rw [hnc]
      simpa using hne
    · rw [hnc]
      exact hfold

theorem takeWhile_digits_append {ds rest : List Char}
    (hds : ∀ c ∈ ds, isDigitCh c = true) (hrest : noDigitHead rest = true) :
    (ds ++ rest).takeWhile isDigitCh = ds ∧ (ds ++ rest).dropWhile isDigitCh = rest := by
  induction ds with
  | nil =>
    cases rest with
    | nil => exact ⟨rfl, rfl⟩
    | cons c cs =>
      simp only [noDigitHead, Bool.not_eq_true'] at hrest
      simp [List.takeWhile, List.dropWhile, hrest]
  | cons d ds ih =>
    have hd := hds d (List.mem_cons_self d ds)
    obtain ⟨h₁, h₂⟩ := ih (fun c hc => hds c (List.mem_cons_of_mem d hc))
    simp [List.takeWhile, List.dropWhile, hd, h₁, h₂]

theorem parseNat_natChars (n : Nat) (rest : List Char) (hrest : noDigitHead rest = true) :
    parseNatChars (natChars n ++ rest) = some (n, rest) := by
  obtain ⟨hdig, hne, hfold⟩ := natChars_spec n
  obtain ⟨htake, hdrop⟩ := takeWhile_digits_append hdig hrest
  unfold parseNatChars
  rw [htake, hdrop]
  cases hnc : natChars n with
  | nil => exact absurd hnc hne
  | cons d ds =>
    rw [hnc] at hfold
    simp only [hfold]

theorem char_valid_nat (c : Char) :
    c.toNat < 0xd800 ∨ (0xdfff < c.toNat ∧ c.toNat < 0x110000) := c.valid

theorem parseStr_raw (fuel : Nat) (c : Char) (cs : List Char) (h1 : ¬c = '"')
    (h2 : ¬c = '\\') (h3 : ¬c.toNat < 0x20) :
    parseStr (fuel + 1) (c :: cs) = (parseStr fuel cs).map (fun r => (c :: r.1, r.2)) := by
  rw [parseStr.eq_def]
  simp [h1, h2, h3]

theorem parseStr_u_pair (fuel : Nat) (A B C D A2 B2 C2 D2 : Char) (cs : List Char)
    (ha hb hc hd la lb lc ld : Nat)
    (hA : decodeHexDigit A = some ha) (hB : decodeHexDigit B = some hb)
    (hC : decodeHexDigit C = some hc) (hD : decodeHexDigit D = some hd)
    (hA2 : decodeHexDigit A2 = some la) (hB2 : decodeHexDigit B2 = some lb)
    (hC2 : decodeHexDigit C2 = some lc) (hD2 : decodeHexDigit D2 = some ld)
    (hhi : 0xd800 ≤ ((ha * 16 + hb) * 16 + hc) * 16 + hd ∧
      ((ha * 16 + hb) * 16 + hc) * 16 + hd < 0xdc00)
    (hlo : 0xdc00 ≤ ((la * 16 + lb) * 16 + lc) * 16 + ld ∧
      ((la * 16 + lb) * 16 + lc) * 16 + ld < 0xe000)
    (m : Nat)
    (hm : 0x10000 + (((ha * 16 + hb) * 16 + hc) * 16 + hd - 0xd800) * 0x400 +
      (((la * 16 + lb) * 16 + lc) * 16 + ld - 0xdc00) = m) :
    parseStr (fuel + 1)
      ('\\' :: 'u' :: A :: B :: C :: D :: '\\' :: 'u' :: A2 :: B2 :: C2 :: D2 :: cs) =
      (parseStr fuel cs).map (fun r => (Char.ofNat m :: r.1, r.2)) := by
  subst hm
  rw [parseStr.eq_def]
  simp [hA, hB, hC, hD, hA2, hB2, hC2, hD2, hhi.1, hhi.2, hlo.1, hlo.2]

set_option maxHeartbeats 2000000 in
theorem parseStr_escape : ∀ (s : List Char) (fuel : Nat) (rest : List Char),
    s.length < fuel → parseStr fuel (escapeChars s ++ '"' :: rest) = some (s, rest) := by
  intro s
  induction s with
  | nil =>
    intro fuel rest h
    obtain ⟨f, rfl⟩ : ∃ f, fuel = f + 1 := ⟨fuel - 1, by omega⟩
    rfl
  | cons c s ih =>
    intro fuel rest h
    obtain ⟨f, rfl⟩ : ∃ f, fuel = f + 1 := ⟨fuel - 1, by simp at h; omega⟩
    have hf : s.length < f := by simp at h; omega
    have IH := ih f rest hf
    simp only [escapeChars, List.append_assoc]
    unfold escapeChar
    split_ifs with h1 h2 h3 h4 h5 h6 h7 h8 h9
    · subst h1
      calc parseStr (f + 1) (['\\', '"'] ++ (escapeChars s ++ '"' :: rest))
          = (parseStr f (escapeChars s ++ '"' :: rest)).map
              (fun r => ('"' :: r.1, r.2)) := rfl
        _ = some ('"' :: s, rest) := by rw [IH]; rfl
    · subst h2
      calc parseStr (f + 1) (['\\', '\\'] ++ (escapeChars s ++ '"' :: rest))
          = (parseStr f (escapeChars s ++ '"' :: rest)).map
              (fun r => ('\\' :: r.1, r.2)) := rfl
        _ = some ('\\' :: s, rest) := by rw [IH]; rfl
    · subst h3
      calc parseStr (f + 1) (['\\', 'b'] ++ (escapeChars s ++ '"' :: rest))
          = (parseStr f (escapeChars s ++ '"' :: rest)).map
              (fun r => ('\x08' :: r.1, r.2)) := rfl
        _ = some ('\x08' :: s, rest) := by rw [IH]; rfl
    · subst h4
      calc parseStr (f + 1) (['\\', 'f'] ++ (escapeChars s ++ '"' :: rest))
          = (parseStr f (escapeChars s ++ '"' :: rest)).map
              (fun r => ('\x0c' :: r.1, r.2)) := rfl
        _ = some ('\x0c' :: s, rest) := by rw [IH]; rfl
    · subst h5
      calc parseStr (f + 1) (['\\', 'n'] ++ (escapeChars s ++ '"' :: rest))
          = (parseStr f (escapeChars s ++ '"' :: rest)).map
              (fun r => ('\n' :: r.1, r.2)) := rfl
        _ = some ('\n' :: s, rest) := by rw [IH]; rfl
    · subst h6
      calc parseStr (f + 1) (['\\', 'r'] ++ (escapeChars s ++ '"' :: rest))
          = (parseStr f (escapeChars s ++ '"' :: rest)).map
              (fun r => ('\r' :: r.1, r.2)) := rfl
        _ = some ('\r' :: s, rest) := by rw [IH]; rfl
    · subst h7
      calc parseStr (f + 1) (['\\', 't'] ++ (escapeChars s ++ '"' :: rest))
          = (parseStr f (escapeChars s ++ '"' :: rest)).map
              (fun r => ('\t' :: r.1, r.2)) := rfl
        _ = some ('\t' :: s, rest) := by rw [IH]; rfl
    · -- printable ASCII kept verbatim
      simp only [List.singleton_append]
      rw [parseStr_raw f c _ h1 h2 (by omega), IH]
      rfl
    · -- single \uXXXX escape
      simp only [hex4, List.cons_append, List.nil_append]
      rw [parseStr]
      simp only [Char.reduceEq, reduceIte]
      rw [hexDigit_round _ (Nat.mod_lt _ (by omega)),
        hexDigit_round _ (Nat.mod_lt _ (by omega)),
        hexDigit_round _ (Nat.mod_lt _ (by omega)),
        hexDigit_round _ (Nat.mod_lt _ (by omega))]
      have harith : ((c.toNat / 4096 % 16 * 16 + c.toNat / 256 % 16) * 16 +
          c.toNat / 16 % 16) * 16 + c.toNat % 16 = c.toNat := by omega
      have hval := char_valid_nat c
      simp only [harith]
      rw [if_neg (by omega : ¬(0xd800 ≤ c.toNat ∧ c.toNat < 0xdc00)),
        if_neg (by omega : ¬(0xdc00 ≤ c.toNat ∧ c.toNat < 0xe000)),
        Char.ofNat_toNat, IH]
      rfl
    · -- surrogate pair
      have hval : 0xdfff < c.toNat ∧ c.toNat < 0x110000 := by
        rcases char_valid_nat c with h | h
        · omega
        · exact h
      have hge : 0x10000 ≤ c.toNat := by omega
      set n1 := 0xd800 + (c.toNat - 0x10000) / 0x400 with hn1
      set n2 := 0xdc00 + (c.toNat - 0x10000) % 0x400 with hn2
      have hq : (c.toNat - 0x10000) / 0x400 < 0x400 := by omega
      have hr : (c.toNat - 0x10000) % 0x400 < 0x400 := Nat.mod_lt _ (by omega)
      have e1 : decodeHexDigit (hexDigitCh (n1 / 4096 % 16)) = some (n1 / 4096 % 16) :=
        hexDigit_round _ (Nat.mod_lt _ (by omega))
      have e2 : decodeHexDigit (hexDigitCh (n1 / 256 % 16)) = some (n1 / 256 % 16) :=
        hexDigit_round _ (Nat.mod_lt _ (by omega))
      have e3 : decodeHexDigit (hexDigitCh (n1 / 16 % 16)) = some (n1 / 16 % 16) :=
        hexDigit_round _ (Nat.mod_lt _ (by omega))
      have e4 : decodeHexDigit (hexDigitCh (n1 % 16)) = some (n1 % 16) :=
        hexDigit_round _ (Nat.mod_lt _ (by omega))
      have e5 : decodeHexDigit (hexDigitCh (n2 / 4096 % 16)) = some (n2 / 4096 % 16) :=
        hexDigit_round _ (Nat.mod_lt _ (by omega))
      have e6 : decodeHexDigit (hexDigitCh (n2 / 256 % 16)) = some (n2 / 256 % 16) :=
        hexDigit_round _ (Nat.mod_lt _ (by omega))
      have e7 : decodeHexDigit (hexDigitCh (n2 / 16 % 16)) = some (n2 / 16 % 16) :=
        hexDigit_round _ (Nat.mod_lt _ (by omega))
      have e8 : decodeHexDigit (hexDigitCh (n2 % 16)) = some (n2 % 16) :=
        hexDigit_round _ (Nat.mod_lt _ (by omega))
      have hhi : 0xd800 ≤ ((n1 / 4096 % 16 * 16 + n1 / 256 % 16) * 16 + n1 / 16 % 16) * 16 +
          n1 % 16 ∧
          ((n1 / 4096 % 16 * 16 + n1 / 256 % 16) * 16 + n1 / 16 % 16) * 16 + n1 % 16 <
          0xdc00 := by
        constructor <;> omega
      have hlo : 0xdc00 ≤ ((n2 / 4096 % 16 * 16 + n2 / 256 % 16) * 16 + n2 / 16 % 16) * 16 +
          n2 % 16 ∧
          ((n2 / 4096 % 16 * 16 + n2 / 256 % 16) * 16 + n2 / 16 % 16) * 16 + n2 % 16 <
          0xe000 := by
        constructor <;> omega
      have hm : 0x10000 +
          (((n1 / 4096 % 16 * 16 + n1 / 256 % 16) * 16 + n1 / 16 % 16) * 16 + n1 % 16 -
            0xd800) * 0x400 +
          (((n2 / 4096 % 16 * 16 + n2 / 256 % 16) * 16 + n2 / 16 % 16) * 16 + n2 % 16 -
            0xdc00) = c.toNat := by
        omega
      simp only [hex4, List.cons_append, List.nil_append, List.append_assoc]
      rw [parseStr_u_pair f _ _ _ _ _ _ _ _ _ _ _ _ _ _ _ _ _
        e1 e2 e3 e4 e5 e6 e7 e8 hhi hlo c.toNat hm]
      rw [Char.ofNat_toNat, IH]
      rfl

theorem intChars_ne_nil (n : Int) : intChars n ≠ [] := by
  cases n with
  | ofNat m => exact (natChars_spec m).2.1
  | negSucc m => simp [intChars]

/-- Every serialized value is nonempty and starts with a character that closes
neither an array nor an object. -/
theorem dumpVal_head (v : JVal) :
    ∃ c cs, dumpVal v = c :: cs ∧ ¬c = ']' ∧ ¬c = '\x7d' := by
  cases v with
  | null => exact ⟨'n', _, rfl, by decide, by decide⟩
  | bool b => cases b with
    | true => exact ⟨'t', _, rfl, by decide, by decide⟩
    | false => exact ⟨'f', _, rfl, by decide, by decide⟩
  | num n =>
    cases n with
    | ofNat m =>
      obtain ⟨hdig, hne, _⟩ := natChars_spec m
      obtain ⟨d, ds, hnc⟩ := List.exists_cons_of_ne_nil hne
      have hd : isDigitCh d = true := hdig d (hnc ▸ List.mem_cons_self _ _)
      refine ⟨d, ds, hnc, ?_, ?_⟩
      · intro hd'
        subst hd'
        exact absurd hd (by decide)
      · intro hd'
        subst hd'
        exact absurd hd (by decide)
    | negSucc m => exact ⟨'-', _, rfl, by decide, by decide⟩
  | str s => exact ⟨'"', _, rfl, by decide, by decide⟩
  | arr xs => cases xs with
    | nil => exact ⟨'[', _, rfl, by decide, by decide⟩
    | cons v vs => exact ⟨'[', _, rfl, by decide, by decide⟩
  | obj kvs => cases kvs with
    | nil => exact ⟨'\x7b', _, rfl, by decide, by decide⟩
    | cons kv kvs => exact ⟨'\x7b', _, rfl, by decide, by decide⟩

theorem sizeV_pos (v : JVal) : 0 < sizeV v := by
  cases v with
  | arr xs => cases xs <;> simp [sizeV]
  | obj kvs => cases kvs <;> simp [sizeV]
  | null => simp [sizeV]
  | bool b => simp [sizeV]
  | num n => simp [sizeV]
  | str s => simp [sizeV]

theorem sizeItems_pos (vs : List JVal) : 0 < sizeItems vs := by
  cases vs <;> simp [sizeItems]

theorem sizeMember_pos (kv : String × JVal) : 0 < sizeMember kv := by
  obtain ⟨k, v⟩ := kv
  simp [sizeMember]

theorem sizeMembers_pos (kvs : List (String × JVal)) : 0 < sizeMembers kvs := by
  cases kvs <;> simp [sizeMembers]

theorem noDigit_nil : noDigitHead [] = true := rfl

theorem noDigit_dumpArrRest (vs : List JVal) (rest : List Char) :
    noDigitHead (dumpArrRest vs ++ ']' :: rest) = true := by
  cases vs <;> rfl

theorem noDigit_dumpObjRest (kvs : List (String × JVal)) (rest : List Char) :
    noDigitHead (dumpObjRest kvs ++ '\x7d' :: rest) = true := by
  cases kvs <;> rfl

/-- Joint round-trip: parsing the serialization of any value (followed by a
non-digit continuation) recovers exactly that value, for every sufficient fuel. -/
theorem parse_dump (fuel : Nat) :
    (∀ v rest, sizeV v ≤ fuel → noDigitHead rest = true →
      parseVal fuel (dumpVal v ++ rest) = some (v, rest)) ∧
    (∀ vs rest, sizeItems vs ≤ fuel →
      parseItems fuel (dumpArrRest vs ++ ']' :: rest) = some (vs, rest)) ∧
    (∀ kv rest, sizeMember kv ≤ fuel → noDigitHead rest = true →
      parseMember fuel (dumpMember kv ++ rest) = some (kv, rest)) ∧
    (∀ kvs rest, sizeMembers kvs ≤ fuel →
      parseMembers fuel (dumpObjRest kvs ++ '\x7d' :: rest) = some (kvs, rest)) := by
  induction fuel with
  | zero =>
    refine ⟨?_, ?_, ?_, ?_⟩
    · intro v rest h _
      have := sizeV_pos v
      omega
    · intro vs rest h
      have := sizeItems_pos vs
      omega
    · intro kv rest h _
      have := sizeMember_pos kv
      omega
    · intro kvs rest h
      have := sizeMembers_pos kvs
      omega
  | succ fuel ih =>
    obtain ⟨ihV, ihI, ihM, ihMs⟩ := ih
    refine ⟨?_, ?_, ?_, ?_⟩
    · intro v rest hsize hnd
      cases v with
      | null => rfl
      | bool b => cases b <;> rfl
      | num n =>
        cases n with
        | ofNat m =>
          obtain ⟨hdig, hne, _⟩ := natChars_spec m
          obtain ⟨d, ds, hnc⟩ := List.exists_cons_of_ne_nil hne
          have hd : isDigitCh d = true := hdig d (hnc ▸ List.mem_cons_self _ _)
          show parseVal (fuel + 1) (natChars m ++ rest) = some (.num (Int.ofNat m), rest)
          rw [hnc, List.cons_append, parseVal, if_pos hd, ← List.cons_append, ← hnc,
            parseNat_natChars m rest hnd]
          rfl
        | negSucc m =>
          show parseVal (fuel + 1) (('-' :: natChars (m + 1)) ++ rest) =
            some (.num (Int.negSucc m), rest)
          rw [List.cons_append, parseVal, if_neg (by decide), if_pos rfl,
            parseNat_natChars (m + 1) rest hnd]
          rfl
      | str s =>
        show parseVal (fuel + 1)
          ('"' :: ((escapeChars s.data ++ ['"']) ++ rest)) = some (.str s, rest)
        rw [parseVal, if_neg (by decide), if_neg (by decide), if_pos rfl]
        rw [show (escapeChars s.data ++ ['"']) ++ rest =
          escapeChars s.data ++ '"' :: rest by simp]
        rw [parseStr_escape s.data _ rest (by
          have := escapeChars_length s.data
          simp only [List.length_append, List.length_cons]
          omega)]
        rw [show mkStr (some (s.data, rest)) = some (.str (String.mk s.data), rest) from rfl,
          stringMk_data]
      | arr xs =>
        cases xs with
        | nil => rfl
        | cons v vs =>
          obtain ⟨c0, cs0, hdv, hc1, hc2⟩ := dumpVal_head v
          have hszv : sizeV v ≤ fuel := by
            have := sizeItems_pos vs
            simp only [sizeV] at hsize
            omega
          have hszi : sizeItems vs ≤ fuel := by
            have := sizeV_pos v
            simp only [sizeV] at hsize
            omega
          show parseVal (fuel + 1)
            ('[' :: (((dumpVal v ++ dumpArrRest vs) ++ [']']) ++ rest)) =
            some (.arr (v :: vs), rest)
          rw [parseVal, if_neg (by decide), if_neg (by decide), if_neg (by decide),
            if_neg (by decide), if_neg (by decide), if_neg (by decide), if_pos rfl]
          rw [show ((dumpVal v ++ dumpArrRest vs) ++ [']']) ++ rest =
            dumpVal v ++ (dumpArrRest vs ++ ']' :: rest) by simp]
          rw [if_neg (by
            rw [hdv, List.cons_append, List.head?_cons]
            simp only [Option.some.injEq]
            exact hc1)]
          rw [ihV v _ hszv (noDigit_dumpArrRest vs rest), Option.some_bind]
          rw [ihI vs rest hszi, Option.map_some']
      | obj kvs =>
        cases kvs with
        | nil => rfl
        | cons kv kvs =>
          obtain ⟨k, v2⟩ := kv
          have hszm : sizeMember (k, v2) ≤ fuel := by
            have := sizeMembers_pos kvs
            simp only [sizeV] at hsize
            omega
          have hszms : sizeMembers kvs ≤ fuel := by
            have := sizeMember_pos (k, v2)
            simp only [sizeV] at hsize
            omega
          show parseVal (fuel + 1)
            ('\x7b' :: (((dumpMember (k, v2) ++ dumpObjRest kvs) ++ ['\x7d']) ++ rest)) =
            some (.obj ((k, v2) :: kvs), rest)
          rw [parseVal, if_neg (by decide), if_neg (by decide), if_neg (by decide),
            if_neg (by decide), if_neg (by decide), if_neg (by decide), if_neg (by decide),
            if_pos rfl]
          rw [show ((dumpMember (k, v2) ++ dumpObjRest kvs) ++ ['\x7d']) ++ rest =
            dumpMember (k, v2) ++ (dumpObjRest kvs ++ '\x7d' :: rest) by simp]
          rw [if_neg (by simp [dumpMember])]
          rw [ihM (k, v2) _ hszm (noDigit_dumpObjRest kvs rest), Option.some_bind]
          rw [ihMs kvs rest hszms, Option.map_some']
    · intro vs rest hsize
      cases vs with
      | nil => rfl
      | cons v vs =>
        have hszv : sizeV v ≤ fuel := by
          have := sizeItems_pos vs
          simp only [sizeItems] at hsize
          omega
        have hszi : sizeItems vs ≤ fuel := by
          have := sizeV_pos v
          simp only [sizeItems] at hsize
          omega
        rw [dumpArrRest, List.cons_append, parseItems]
        rw [if_neg (by simp), if_pos (by simp)]
        simp only [List.tail_cons, List.append_assoc]
        rw [ihV v _ hszv (noDigit_dumpArrRest vs rest), Option.some_bind]
        rw [ihI vs rest hszi, Option.map_some']
    · intro kv rest hsize hnd
      obtain ⟨k, v⟩ := kv
      have hszv : sizeV v ≤ fuel := by
        simp only [sizeMember] at hsize
        omega
      show parseMember (fuel + 1)
        ('"' :: ((escapeChars k.data ++ ('"' :: ':' :: dumpVal v)) ++ rest)) =
        some ((k, v), rest)
      rw [List.append_assoc, List.cons_append, List.cons_append]
      rw [parseMember, if_pos (by simp)]
      simp only [List.tail_cons, List.head?_cons]
      rw [parseStr_escape k.data _ _ (by
        have := escapeChars_length k.data
        simp only [List.length_append, List.length_cons]
        omega)]
      simp only [Option.some_bind, List.head?_cons, List.tail_cons, reduceIte]
      rw [ihV v rest hszv hnd]
      simp only [Option.map_some', stringMk_data]
    · intro kvs rest hsize
      cases kvs with
      | nil => rfl
      | cons kv kvs =>
        have hszm : sizeMember kv ≤ fuel := by
          have := sizeMembers_pos kvs
          simp only [sizeMembers] at hsize
          omega
        have hszms : sizeMembers kvs ≤ fuel := by
          have := sizeMember_pos kv
          simp only [sizeMembers] at hsize
          omega
        rw [dumpObjRest, List.cons_append, parseMembers]
        rw [if_neg (by simp), if_pos (by simp)]
        simp only [List.tail_cons, List.append_assoc]
        rw [ihM kv _ hszm (noDigit_dumpObjRest kvs rest), Option.some_bind]
        rw [ihMs kvs rest hszms, Option.map_some']

mutual
theorem sizeV_le_length : ∀ v : JVal, sizeV v ≤ (dumpVal v).length
  | .null => by simp [sizeV, dumpVal]
  | .bool b => by cases b <;> simp [sizeV, dumpVal]
  | .num n => by
      have hpos : 0 < (intChars n).length := List.length_pos.mpr (intChars_ne_nil n)
      simp only [sizeV, dumpVal]
      omega
  | .str s => by simp [sizeV, dumpVal]
  | .arr [] => by simp [sizeV, dumpVal]
  | .arr (v :: vs) => by
      have h1 := sizeV_le_length v
      have h2 := sizeItems_le_length vs
      simp only [sizeV, dumpVal, List.length_append, List.length_cons]
      omega
  | .obj [] => by simp [sizeV, dumpVal]
  | .obj (kv :: kvs) => by
      have h1 := sizeMember_le_length kv
      have h2 := sizeMembers_le_length kvs
      simp only [sizeV, dumpVal, List.length_append, List.length_cons]
      omega

theorem sizeItems_le_length : ∀ vs : List JVal, sizeItems vs ≤ (dumpArrRest vs).length + 1
  | [] => by simp [sizeItems, dumpArrRest]
  | v :: vs => by
      have h1 := sizeV_le_length v
      have h2 := sizeItems_le_length vs
      simp only [sizeItems, dumpArrRest, List.length_append, List.length_cons]
      omega

theorem sizeMember_le_length : ∀ kv : String × JVal, sizeMember kv ≤ (dumpMember kv).length
  | (k, v) => by
      have h1 := sizeV_le_length v
      simp only [sizeMember, dumpMember, List.length_append, List.length_cons]
      omega

theorem sizeMembers_le_length :
    ∀ kvs : List (String × JVal), sizeMembers kvs ≤ (dumpObjRest kvs).length + 1
  | [] => by simp [sizeMembers, dumpObjRest]
  | kv :: kvs => by
      have h1 := sizeMember_le_length kv
      have h2 := sizeMembers_le_length kvs
      simp only [sizeMembers, dumpObjRest, List.length_append, List.length_cons]
      omega
end

/-- Round-trip: `json.loads` applied to the canonical serialization of any value
recovers exactly its canonical form. -/
theorem loads_dumps (v : JVal) : loads (dumps v) = some (canon v) := by
  unfold loads dumps
  have hp := (parse_dump ((dumpVal (canon v)).length + 1)).1 (canon v) []
    (by have := sizeV_le_length (canon v); omega) rfl
  rw [List.append_nil] at hp
  rw [show (String.mk (dumpVal (canon v))).data = dumpVal (canon v) from rfl, hp]

/-! ## Filesystem lemmas -/

theorem fsGet_set_eq (fs : Fs) (p c : String) : fsGet (fsSet fs p c) p = some c := by
  simp [fsGet, fsSet, List.find?]

theorem fsGet_set_ne (fs : Fs) (p c q : String) (h : ¬q = p) :
    fsGet (fsSet fs p c) q = fsGet fs q := by
  have hb : (p == q) = false := beq_eq_false_iff_ne.mpr (fun hpq => h hpq.symm)
  simp [fsGet, fsSet, List.find?, hb]

theorem fsGet_del_ne (fs : Fs) (p q : String) (h : ¬q = p) :
    fsGet (fsDel fs p) q = fsGet fs q := by
  induction fs with
  | nil => rfl
  | cons e fs ih =>
    by_cases he : e.1 = p
    · have h1 : List.filter (fun x => !(x.1 == p)) (e :: fs) =
          List.filter (fun x => !(x.1 == p)) fs := by
        simp [List.filter_cons, he]
      have hq : (e.1 == q) = false := beq_eq_false_iff_ne.mpr (fun h' => h (h'.symm.trans he))
      calc fsGet (fsDel (e :: fs) p) q = fsGet (fsDel fs p) q := by
            simp only [fsDel]
            rw [h1]
        _ = fsGet fs q := ih
        _ = fsGet (e :: fs) q := by simp [fsGet, List.find?, hq]
    · have h1 : List.filter (fun x => !(x.1 == p)) (e :: fs) =
          e :: List.filter (fun x => !(x.1 == p)) fs := by
        simp [List.filter_cons, he]
      by_cases heq : e.1 = q
      · have hq : (e.1 == q) = true := beq_iff_eq.mpr heq
        simp only [fsDel]
        rw [h1]
        simp [fsGet, List.find?, hq]
      · have hq : (e.1 == q) = false := beq_eq_false_iff_ne.mpr heq
        simp only [fsDel]
        rw [h1]
        simp only [fsGet, List.find?, hq]
        simpa only [fsDel, fsGet] using ih

/-- After the atomic write, the target holds exactly the canonical
serialization. -/
theorem atomic_write_final (path tmp : String) (obj : JVal) (fs : Fs) :
    fsGet (applyOps (atomic_write_json path tmp obj) fs) path = some (dumps obj) := by
  simp only [atomic_write_json, applyOps, List.foldl, applyOp]
  rw [show fsGet (fsSet (fsSet fs tmp "") tmp (dumps obj)) tmp = some (dumps obj) from
    fsGet_set_eq _ _ _]
  exact fsGet_set_eq _ _ _

/-- Before the final rename, the target file is never touched: applying any
proper prefix of the operation sequence leaves the target's content unchanged. -/
theorem atomic_write_target_untouched (path tmp : String) (obj : JVal) (fs : Fs)
    (h : ¬tmp = path) (i : Nat) (hi : i < 5) :
    fsGet (applyOps ((atomic_write_json path tmp obj).take i) fs) path = fsGet fs path := by
  interval_cases i <;>
    simp only [atomic_write_json, List.take, applyOps, List.foldl, applyOp] <;>
    repeat rw [fsGet_set_ne _ _ _ _ (fun hc => h hc.symm)]

/-- The only operation in the sequence that names the target at all is the
single final rename. -/
theorem atomic_write_touches (path tmp : String) (obj : JVal) (h : ¬tmp = path) :
    (atomic_write_json path tmp obj).filter (fun op => opTouches op path) =
      [FsOp.rename tmp path] := by
  have hb : (tmp == path) = false := beq_eq_false_iff_ne.mpr h
  simp [atomic_write_json, opTouches, List.filter, hb]

/-- Any path other than the target and the temp name is unaffected by the whole
write. -/
theorem atomic_write_other (path tmp : String) (obj : JVal) (fs : Fs) (q : String)
    (h1 : ¬q = path) (h2 : ¬q = tmp) :
    fsGet (applyOps (atomic_write_json path tmp obj) fs) q = fsGet fs q := by
  simp only [atomic_write_json, applyOps, List.foldl, applyOp]
  rw [fsGet_set_eq]
  rw [fsGet_set_ne _ _ _ _ h1, fsGet_del_ne _ _ _ h2, fsGet_set_ne _ _ _ _ h2,
    fsGet_set_ne _ _ _ _ h2]

/-! ## Component-level helper lemmas -/

theorem dumps_canon (v : JVal) : dumps (canon v) = dumps v := by
  unfold dumps
  rw [canon_canon]

/-- Reading a slot that holds a canonical serialization yields the canonical
value, silently. -/
theorem read_slot_dumps (A : JVal) :
    read_json_if_ready (some (dumps A)) = (some (canon A), []) := by
  obtain ⟨c, cs, hdv, _, _⟩ := dumpVal_head (canon A)
  have hne : ¬((dumps A).data.length = 0) := by
    rw [show (dumps A).data = dumpVal (canon A) from rfl, hdv]
    simp
  show (if (dumps A).data.length = 0 then ((none : Option JVal), ([] : List LogEvent))
    else
      match loads (dumps A) with
      | some v => (some v, [])
      | none => (none, [])) = (some (canon A), [])
  rw [if_neg hne, loads_dumps A]

/-- With a controller that accepts every write, the apply-inputs loop performs
exactly one `set_var` per `%`-keyed entry, in order, with the sentinel stripped
and the value passed through unchanged. -/
theorem applyVars_ok (setVar : String → JVal → Except String Unit)
    (hok : ∀ n v, setVar n v = .ok ()) :
    ∀ kvs, applyVars setVar kvs =
      (kvs.filterMap (fun kv =>
        if startsWithPercent kv.1 then some (dropFirst kv.1, kv.2) else none), none) := by
  intro kvs
  induction kvs with
  | nil => rfl
  | cons kv kvs ih =>
    obtain ⟨k, v⟩ := kv
    by_cases hs : startsWithPercent k
    · simp [applyVars, hs, hok, ih, List.filterMap_cons]
    · simp [applyVars, hs, ih, List.filterMap_cons]

/-- With a controller that answers every read, the collect-outputs loop builds
exactly one `%`-prefixed entry per configured output variable, in order. -/
theorem collectOutputs_ok (getVar : String → Except String JVal) (g : String → JVal)
    (hok : ∀ a, getVar a = .ok (g a)) :
    ∀ L, collectOutputs getVar L = (L.map (fun a => ("%" ++ a, g a)), none) := by
  intro L
  induction L with
  | nil => rfl
  | cons a as ih => simp [collectOutputs, hok, ih]

/-! ## Claim theorems -/

/-- C1: for every slot path and snapshot, the State Store write serializes the
snapshot into the canonical deterministic byte form (keys sorted, compact
separators), writes the full content to a temporary file created in the target's
directory, flushes and fsyncs it, and then performs a single atomic
rename/replace onto the target; the target is never mutated in place (every
proper prefix of the operation sequence leaves it untouched, and the only
operation naming the target is the final rename). -/
theorem C1_atomic_write (path tmp : String) (obj : JVal) (fs : Fs) (h : ¬tmp = path) :
    fsGet (applyOps (atomic_write_json path tmp obj) fs) path = some (dumps obj) ∧
    (∀ i, i < 5 →
      fsGet (applyOps ((atomic_write_json path tmp obj).take i) fs) path = fsGet fs path) ∧
    (atomic_write_json path tmp obj).filter (fun op => opTouches op path) =
      [FsOp.rename tmp path] ∧
    (atomic_write_json path tmp obj).head? =
      some (FsOp.createTemp (if dirname path = "" then "." else dirname path) tmp) ∧
    (atomic_write_json path tmp obj).get? 1 = some (FsOp.writeFile tmp (dumps obj)) ∧
    (atomic_write_json path tmp obj).get? 2 = some (FsOp.flush tmp) ∧
    (atomic_write_json path tmp obj).get? 3 = some (FsOp.fsync tmp) ∧
    (atomic_write_json path tmp obj).get? 4 = some (FsOp.rename tmp path) ∧
    (atomic_write_json path tmp obj).length = 5 ∧
    (∀ kvs l, canon (JVal.obj kvs) = JVal.obj l →
      (l.map Prod.fst).Pairwise (fun a b => keyLe a b = true)) :=
  ⟨atomic_write_final path tmp obj fs,
   atomic_write_target_untouched path tmp obj fs h,
   atomic_write_touches path tmp obj h,
   rfl, rfl, rfl, rfl, rfl, rfl, canon_obj_sorted⟩

/-- Witness for C1 at a concrete path, temp name, snapshot and filesystem. -/
theorem C1_atomic_write_witness :
    fsGet (applyOps (atomic_write_json "/tmp/output.json" "/tmp/tmpa1"
      (.obj [("%QX0.0", .bool true)])) []) "/tmp/output.json" =
      some (dumps (.obj [("%QX0.0", .bool true)])) :=
  (C1_atomic_write "/tmp/output.json" "/tmp/tmpa1" (.obj [("%QX0.0", .bool true)]) []
    (by decide)).1

/-- C2: on every polling tick of the Outbound Adapter, an absent (missing,
empty, or undecodable) slot publishes nothing and leaves the fingerprint
unchanged; a readable snapshot is published exactly when its canonical
serialization differs from the Last-Published Fingerprint, after which the
fingerprint equals the published serialization; the content sequence
[A, A, A, B, B] yields exactly the two publications A then B; and because the
fingerprint starts as none, the first tick reading valid content C after a
restart publishes C exactly once even if C is unchanged. -/
theorem C2_output_bridge :
    (∀ st file, (read_json_if_ready file).1 = none → outputTick st file = st) ∧
    (∀ (st : BridgeState) (A : JVal),
      outputTick st (some (dumps A)) =
        if some (dumps A) ≠ st.previous_payload then
          ⟨some (dumps A), st.published ++ [dumps A]⟩
        else st) ∧
    (∀ (st : BridgeState) (A : JVal),
      (outputTick st (some (dumps A))).previous_payload = some (dumps A)) ∧
    (∀ A B : JVal, ¬dumps A = dumps B →
      (runTicks [some (dumps A), some (dumps A), some (dumps A),
        some (dumps B), some (dumps B)]).published = [dumps A, dumps B]) ∧
    (∀ C : JVal, (runTicks [some (dumps C)]).published = [dumps C]) := by
  have hdump : ∀ (st : BridgeState) (A : JVal),
      outputTick st (some (dumps A)) =
        if some (dumps A) ≠ st.previous_payload then
          ⟨some (dumps A), st.published ++ [dumps A]⟩
        else st := by
    intro st A
    unfold outputTick
    rw [read_slot_dumps]
    simp only [dumps_canon]
  refine ⟨?_, hdump, ?_, ?_, ?_⟩
  · intro st file h
    unfold outputTick
    rw [h]
  · intro st A
    rw [hdump]
    by_cases hc : some (dumps A) ≠ st.previous_payload
    · rw [if_pos hc]
    · rw [if_neg hc]
      push_neg at hc
      exact hc.symm
  · intro A B hAB
    have hBA : ¬dumps B = dumps A := fun hE => hAB hE.symm
    have s1 : outputTick initialBridgeState (some (dumps A)) =
        ⟨some (dumps A), [dumps A]⟩ := by
      rw [hdump]
      simp [initialBridgeState]
    have s2 : outputTick ⟨some (dumps A), [dumps A]⟩ (some (dumps A)) =
        ⟨some (dumps A), [dumps A]⟩ := by
      rw [hdump]
      simp
    have s4 : outputTick ⟨some (dumps A), [dumps A]⟩ (some (dumps B)) =
        ⟨some (dumps B), [dumps A, dumps B]⟩ := by
      rw [hdump, if_pos (by simp [hBA])]
      rfl
    have s5 : outputTick ⟨some (dumps B), [dumps A, dumps B]⟩ (some (dumps B)) =
        ⟨some (dumps B), [dumps A, dumps B]⟩ := by
      rw [hdump]
      simp
    unfold runTicks
    simp only [List.foldl]
    rw [s1, s2, s2, s4, s5]
  · intro C
    have s1 : outputTick initialBridgeState (some (dumps C)) =
        ⟨some (dumps C), [dumps C]⟩ := by
      rw [hdump]
      simp [initialBridgeState]
    unfold runTicks
    simp only [List.foldl]
    rw [s1]

/-- Witness for C2's change-suppression scenario at two concrete snapshots. -/
theorem C2_output_bridge_witness :
    (runTicks [some (dumps (.obj [("%QX0.0", .bool true)])),
      some (dumps (.obj [("%QX0.0", .bool true)])),
      some (dumps (.obj [("%QX0.0", .bool true)])),
      some (dumps (.obj [("%QX0.0", .bool false)])),
      some (dumps (.obj [("%QX0.0", .bool false)]))]).published =
      [dumps (.obj [("%QX0.0", .bool true)]), dumps (.obj [("%QX0.0", .bool false)])] :=
  C2_output_bridge.2.2.2.1 (.obj [("%QX0.0", .bool true)]) (.obj [("%QX0.0", .bool false)])
    (by decide)

/-- C3: in each scan period's apply-inputs step, an absent inbound slot makes
zero set-variable calls and logs nothing; otherwise every entry whose key starts
with the sentinel `%` produces exactly one set-variable call with the sentinel
stripped and the value unchanged, and every other entry is skipped; in
particular the payload with keys `%IX0.0` and `BAD` sets only `IX0.0`. -/
theorem C3_apply_inputs :
    (∀ setVar, update_inputs setVar none = ([], [])) ∧
    (∀ (setVar : String → JVal → Except String Unit) content kvs,
      (∀ n v, setVar n v = .ok ()) →
      loads content = some (.obj kvs) →
      update_inputs setVar (some content) =
        (kvs.filterMap (fun kv =>
          if startsWithPercent kv.1 then some (dropFirst kv.1, kv.2) else none), [])) ∧
    (∀ setVar, (∀ n v, setVar n v = .ok ()) →
      update_inputs setVar
        (some (dumps (.obj [("%IX0.0", .bool true), ("BAD", .bool false)]))) =
        ([("IX0.0", .bool true)], [])) := by
  refine ⟨fun _ => rfl, ?_, ?_⟩
  · intro setVar content kvs hok hl
    simp only [update_inputs, hl, applyVars_ok setVar hok]
  · intro setVar hok
    have hc : canon (.obj [("%IX0.0", .bool true), ("BAD", .bool false)]) =
        .obj [("%IX0.0", .bool true), ("BAD", .bool false)] := rfl
    simp only [update_inputs, loads_dumps, hc, applyVars_ok setVar hok]
    rfl

/-- Witness for C3 at the spec's example payload with an accepting controller. -/
theorem C3_apply_inputs_witness :
    update_inputs (fun _ _ => Except.ok ())
      (some (dumps (.obj [("%IX0.0", .bool true), ("BAD", .bool false)]))) =
      ([("IX0.0", .bool true)], []) :=
  C3_apply_inputs.2.2 (fun _ _ => Except.ok ()) (fun _ _ => rfl)

/-- C4: in each scan period's collect-outputs step the snapshot written to the
outbound slot is built fresh from the controller alone (the slot content after
the write does not depend on the previous filesystem state), its member list is
exactly the `%`-prefixed configured Output Variable Set in order with the
controller's current values, and the canonical form's key set is exactly the
`%`-prefixed Output Variable Set — no other keys ever appear. -/
theorem C4_collect_outputs (getVar : String → Except String JVal) (g : String → JVal)
    (tmp : String) (fs fs' : Fs) (hok : ∀ a, getVar a = .ok (g a)) :
    update_outputs getVar tmp fs =
      (applyOps (atomic_write_json OUTPUT_PATH tmp
        (.obj (OUTPUT_VARS.map (fun a => ("%" ++ a, g a))))) fs, []) ∧
    fsGet (update_outputs getVar tmp fs).1 OUTPUT_PATH =
      some (dumps (.obj (OUTPUT_VARS.map (fun a => ("%" ++ a, g a))))) ∧
    fsGet (update_outputs getVar tmp fs).1 OUTPUT_PATH =
      fsGet (update_outputs getVar tmp fs').1 OUTPUT_PATH ∧
    (∀ l, canon (.obj (OUTPUT_VARS.map (fun a => ("%" ++ a, g a)))) = .obj l →
      (l.map Prod.fst).Perm (OUTPUT_VARS.map (fun a => "%" ++ a))) := by
  have heq : ∀ fs₀ : Fs, update_outputs getVar tmp fs₀ =
      (applyOps (atomic_write_json OUTPUT_PATH tmp
        (.obj (OUTPUT_VARS.map (fun a => ("%" ++ a, g a))))) fs₀, []) := by
    intro fs₀
    simp only [update_outputs, collectOutputs_ok getVar g hok]
  refine ⟨heq fs, ?_, ?_, ?_⟩
  · rw [heq fs]
    exact atomic_write_final _ _ _ _
  · rw [heq fs, heq fs']
    rw [show (applyOps (atomic_write_json OUTPUT_PATH tmp
        (.obj (OUTPUT_VARS.map (fun a => ("%" ++ a, g a))))) fs, ([] : List LogEvent)).1 =
      applyOps (atomic_write_json OUTPUT_PATH tmp
        (.obj (OUTPUT_VARS.map (fun a => ("%" ++ a, g a))))) fs from rfl]
    rw [atomic_write_final, atomic_write_final]
  · intro l hl
    have hl' : l = sortByKey (canonKVs (OUTPUT_VARS.map (fun a => ("%" ++ a, g a)))) := by
      simp only [canon] at hl
      exact (JVal.obj.inj hl).symm
    subst hl'
    refine ((sortByKey_perm _).map Prod.fst).trans ?_
    rw [keys_canonKVs, List.map_map]
    exact List.Perm.refl _

/-- Witness for C4 at a concrete controller valuation and two filesystems. -/
theorem C4_collect_outputs_witness :
    fsGet (update_outputs (fun _ => Except.ok (JVal.bool true)) "/tmp/tmpc4" []).1
      OUTPUT_PATH = some (dumps (.obj (OUTPUT_VARS.map (fun a => ("%" ++ a, .bool true))))) :=
  (C4_collect_outputs (fun _ => Except.ok (JVal.bool true)) (fun _ => JVal.bool true)
    "/tmp/tmpc4" [] [("other", "x")] (fun _ => rfl)).2.1

/-- C5: writing any snapshot to a slot through the State Store write and reading
it back through the State Store read yields its canonical form, which is
deep-equal to the snapshot (canonicalization is idempotent), and the serialized
bytes do not depend on the insertion order of the snapshot's (distinct) keys. -/
theorem C5_round_trip (S : JVal) (path tmp : String) (fs : Fs) :
    (read_json_if_ready (fsGet (applyOps (atomic_write_json path tmp S) fs) path)).1 =
      some (canon S) ∧
    canon (canon S) = canon S ∧
    (∀ kvs kvs', S = .obj kvs → kvs.Perm kvs' → (kvs.map Prod.fst).Nodup →
      dumps (.obj kvs') = dumps S) := by
  refine ⟨?_, canon_canon S, ?_⟩
  · rw [atomic_write_final, read_slot_dumps]
  · intro kvs kvs' hS hperm hnd
    subst hS
    exact dumps_obj_perm hperm hnd

/-- Witness for C5: the two insertion orders of a concrete two-key snapshot
serialize identically, and the round-trip yields its canonical form. -/
theorem C5_round_trip_witness :
    dumps (.obj [("a", .bool true), ("b", .null)]) =
      dumps (.obj [("b", .null), ("a", .bool true)]) :=
  (C5_round_trip (.obj [("b", .null), ("a", .bool true)]) "/tmp/output.json" "/tmp/tmpc5"
    []).2.2 [("b", .null), ("a", .bool true)] [("a", .bool true), ("b", .null)] rfl
    (List.Perm.swap ("a", JVal.bool true) ("b", JVal.null) []) (by decide)

/-- C6 counterexample: at the Outbound Adapter's poll read, malformed
(non-decodable) slot content is treated as absent but is NOT logged — the
decode-error branch of `read_json_if_ready` returns silently, contradicting the
claim that malformed content "is logged" at every read site. -/
theorem C6_counterexample :
    (read_json_if_ready (some (String.mk ['\x7b']))).1 = none ∧
    (read_json_if_ready (some (String.mk ['\x7b']))).2 = [] :=
  ⟨rfl, rfl⟩

/-- C6 (amended): at every slot read site a missing file and a zero-length file
yield absent (no data, caller skips) and no exception propagates; malformed
content is also treated as absent — at the Scan Driver's read it is logged,
while the Outbound Adapter's poll read skips a decode failure silently. -/
theorem C6_read_absent :
    read_json_if_ready none = (none, []) ∧
    read_json_if_ready (some "") = (none, []) ∧
    (∀ content, loads content = none → read_json_if_ready (some content) = (none, [])) ∧
    (∀ setVar, update_inputs setVar none = ([], [])) ∧
    (∀ setVar content, loads content = none →
      update_inputs setVar (some content) = ([], [.psmInputError])) := by
  refine ⟨rfl, rfl, ?_, fun _ => rfl, ?_⟩
  · intro content hl
    simp only [read_json_if_ready]
    by_cases hz : content.data.length = 0
    · rw [if_pos hz]
    · rw [if_neg hz, hl]
  · intro setVar content hl
    simp only [update_inputs, hl]

/-- Witness for C6's amended statement at a concrete malformed content. -/
theorem C6_read_absent_witness :
    read_json_if_ready (some "x") = (none, []) ∧
    update_inputs (fun _ _ => Except.ok ()) (some "x") = ([], [.psmInputError]) :=
  ⟨C6_read_absent.2.2.1 "x" rfl, C6_read_absent.2.2.2.2 (fun _ _ => Except.ok ()) "x" rfl⟩

/-- C7: a received payload that is not valid UTF-8, not valid JSON, or not an
object is logged and dropped with the inbound slot left unchanged (the handler
returns normally); a payload that decodes to an object is written whole to the
inbound slot as a full replacement even when some keys lack the `%` sentinel —
such keys only add a warning before the write, never a filtered or dropped
write. -/
theorem C7_inbound_validation (tmp : String) (fs : Fs) :
    on_message none tmp fs = (fs, [.errDecode]) ∧
    (∀ p, loads p = none → on_message (some p) tmp fs = (fs, [.errBadJson])) ∧
    (∀ p v, loads p = some v → (∀ kvs, v ≠ .obj kvs) →
      on_message (some p) tmp fs = (fs, [.ignoredNonObject])) ∧
    (∀ p kvs, loads p = some (.obj kvs) →
      fsGet (on_message (some p) tmp fs).1 INPUT_PATH = some (dumps (.obj kvs)) ∧
      (on_message (some p) tmp fs).2 =
        (if (kvs.filter (fun kv => !startsWithPercent kv.1)).isEmpty then []
         else [LogEvent.warnBadKeys]) ++ [LogEvent.wroteInput]) := by
  refine ⟨rfl, ?_, ?_, ?_⟩
  · intro p hl
    simp only [on_message, hl]
  · intro p v hl hne
    cases v with
    | obj kvs => exact absurd rfl (hne kvs)
    | null => simp only [on_message, hl]
    | bool b => simp only [on_message, hl]
    | num n => simp only [on_message, hl]
    | str s => simp only [on_message, hl]
    | arr xs => simp only [on_message, hl]
  · intro p kvs hl
    simp only [on_message, hl]
    exact ⟨atomic_write_final _ _ _ _, trivial⟩

/-- Witness for C7 at a concrete payload mixing sentinel and non-sentinel keys. -/
theorem C7_inbound_validation_witness :
    fsGet (on_message (some (dumps (.obj [("%IX0.0", .bool true), ("BAD", .bool false)])))
      "/tmp/tmpc7" []).1 INPUT_PATH =
      some (dumps (.obj [("%IX0.0", .bool true), ("BAD", .bool false)])) := by
  have h := ((C7_inbound_validation "/tmp/tmpc7" []).2.2.2
    (dumps (.obj [("%IX0.0", .bool true), ("BAD", .bool false)]))
    [("%IX0.0", .bool true), ("BAD", .bool false)] (loads_dumps _)).1
  simpa using h

/-- C8: immediately after Scan Driver init — which performs the one-time
runtime start and pre-creates the outbound slot as an empty snapshot — reading
the outbound slot returns the empty object, never absent. -/
theorem C8_empty_init (tmp : String) (fs : Fs) :
    read_json_if_ready (fsGet (hardware_init tmp fs) OUTPUT_PATH) =
      (some (.obj []), []) := by
  unfold hardware_init
  rw [atomic_write_final, read_slot_dumps]
  rfl

/-- C9: apply-inputs and collect-outputs never propagate an exception to the
scan loop: an exception raised by `set_var` or `get_var` is caught and logged
and the operation returns normally (on a collect-outputs failure nothing is
written), the loop's step equation holds for every controller behavior, and a
controller that fails every read still lets the loop complete all `n` periods,
logging one error per period and leaving the filesystem unchanged. -/
theorem C9_no_propagation :
    (∀ setVar content kvs e, loads content = some (.obj kvs) →
      (applyVars setVar kvs).2 = some e →
      update_inputs setVar (some content) =
        ((applyVars setVar kvs).1, [.psmInputError])) ∧
    (∀ getVar tmp fs e, (collectOutputs getVar OUTPUT_VARS).2 = some e →
      update_outputs getVar tmp fs = (fs, [.psmOutputError])) ∧
    (∀ setVar getVar tmp n fs,
      scanLoop setVar getVar tmp (n + 1) fs =
        ((scanLoop setVar getVar tmp n (scanPeriod setVar getVar tmp fs).1).1,
          (scanPeriod setVar getVar tmp fs).2.2 ++
            (scanLoop setVar getVar tmp n (scanPeriod setVar getVar tmp fs).1).2)) ∧
    (∀ tmp n fs, fsGet fs INPUT_PATH = none →
      scanLoop (fun _ _ => Except.ok ()) (fun _ => Except.error "boom") tmp n fs =
        (fs, List.replicate n LogEvent.psmOutputError)) := by
  refine ⟨?_, ?_, fun _ _ _ _ _ => rfl, ?_⟩
  · intro setVar content kvs e hl herr
    simp only [update_inputs, hl, herr]
  · intro getVar tmp fs e herr
    simp only [update_outputs, herr]
  · intro tmp n fs hin
    induction n with
    | zero => rfl
    | succ n ih =>
      have hper : scanPeriod (fun _ _ => Except.ok ()) (fun _ => Except.error "boom")
          tmp fs = (fs, [], [LogEvent.psmOutputError]) := by
        simp only [scanPeriod, hin]
        rfl
      show ((scanLoop _ _ tmp n (scanPeriod _ _ tmp fs).1).1,
        (scanPeriod _ _ tmp fs).2.2 ++ (scanLoop _ _ tmp n (scanPeriod _ _ tmp fs).1).2) = _
      rw [hper]
      rw [show ((fs, ([] : List (String × JVal)), [LogEvent.psmOutputError]) :
        Fs × List (String × JVal) × List LogEvent).1 = fs from rfl]
      rw [ih]
      simp [List.replicate]

/-- Witness for C9: two scan periods with an always-failing controller read
complete normally, log one error each, and leave the filesystem unchanged. -/
theorem C9_no_propagation_witness :
    scanLoop (fun _ _ => Except.ok ()) (fun _ => Except.error "boom") "/tmp/tmpc9" 2 [] =
      ([], [LogEvent.psmOutputError, LogEvent.psmOutputError]) := by
  have h := C9_no_propagation.2.2.2 "/tmp/tmpc9" 2 [] rfl
  simpa using h

/-- C10: no component validates value types — an inbound object is written to
the slot whole (its serialization round-trips to the canonical form of the full
object, whatever the shapes of its values), apply-inputs forwards each
sentinel-keyed entry's value to set-variable completely unchanged, and the key
check everywhere inspects exactly the key's first character. -/
theorem C10_value_transparency :
    (∀ p kvs tmp fs, loads p = some (.obj kvs) →
      fsGet (on_message (some p) tmp fs).1 INPUT_PATH = some (dumps (.obj kvs)) ∧
      loads (dumps (.obj kvs)) = some (canon (.obj kvs)) ∧
      canon (canon (.obj kvs)) = canon (.obj kvs)) ∧
    (∀ (setVar : String → JVal → Except String Unit) kvs,
      (∀ n v, setVar n v = .ok ()) →
      (applyVars setVar kvs).1 = kvs.filterMap (fun kv =>
        if startsWithPercent kv.1 then some (dropFirst kv.1, kv.2) else none)) ∧
    (∀ k : String, startsWithPercent k = true ↔ k.data.head? = some '%') := by
  refine ⟨?_, ?_, ?_⟩
  · intro p kvs tmp fs hl
    refine ⟨?_, loads_dumps _, canon_canon _⟩
    simp only [on_message, hl]
    exact atomic_write_final _ _ _ _
  · intro setVar kvs hok
    rw [applyVars_ok setVar hok]
  · intro k
    unfold startsWithPercent
    cases hd : k.data with
    | nil => simp
    | cons c cs => simp [List.head?_cons, beq_iff_eq]

/-- Witness for C10: values of every JSON shape — null, array, nested object —
pass through apply-inputs unchanged. -/
theorem C10_value_transparency_witness :
    (applyVars (fun _ _ => Except.ok ())
      [("%A", .null), ("%B", .arr [.num 1]), ("C", .obj [])]).1 =
      [("A", JVal.null), ("B", JVal.arr [JVal.num 1])] := by
  rw [C10_value_transparency.2.1 (fun _ _ => Except.ok ())
    [("%A", .null), ("%B", .arr [.num 1]), ("C", .obj [])] (fun _ _ => rfl)]
  rfl


example : canon (.obj [("b", .null), ("a", .bool true)]) =
    .obj [("a", .bool true), ("b", .null)] := rfl
example : loads (dumps (.obj [("b", .num 2), ("a", .bool true)])) =
    some (.obj [("a", .bool true), ("b", .num 2)]) := rfl

example : loads (dumps (.obj [("k", .str "a\nb\\c\"d")])) =
    some (.obj [("k", .str "a\nb\\c\"d")]) := rfl

example : loads (dumps (.num (-42))) = some (.num (-42)) := rfl

example : loads (dumps (.arr [.null, .str "é€𝄞", .num 0])) =
    some (.arr [.null, .str "é€𝄞", .num 0]) := rfl

end PlcRos
